import Mathlib

/-!
Verification of `iblutil` (src/iblutil/util.py) against its specification.

Two subsystems are embedded:

* `range_str` (util.py lines 82-107): the integer range compressor.  The
  source first evaluates `list(set(values))` (line 94) and then walks the
  resulting list by index.  Python `str` objects are sequences of code
  points, so the accumulating string is modelled as a `List Char`; `rfind`
  returns a code-point index and slicing is by code points, both modelled
  directly on `List Char`.  Python list subscripts can raise `IndexError`,
  so the loop is embedded in `Option` (a `none` models an uncaught
  `IndexError`).

* `get_logger` (util.py lines 110-153): the idempotent logger factory.
  The process-wide `logging` registry is modelled as an association list
  from logger names to channels; handlers are records carrying the fields
  the source sets (name, own level, formatter data, file destination).

`list(set(values))` depends on the iteration order of a CPython `set`,
which for `int` keys is fully deterministic: it is the slot order of the
open-addressing hash table built by `set_add_entry` (CPython
Objects/setobject.c).  That algorithm is embedded below (`pySetList`) so
that the concrete behaviour of `range_str` can be evaluated: 8-slot
initial table, probe sequence `i = (i*5 + 1 + (perturb >>= 5)) & mask`
with `LINEAR_PROBES = 9` extra linear slots when they fit below the mask,
growth to the next power of two above `4 * used` once `fill * 5 >= mask * 3`.
-/

set_option maxRecDepth 8192

/-! ## Python `str(int)`: decimal rendering of an integer -/

/-- Decimal digit character for `n < 10`. -/
def digitChar (n : Nat) : Char := Char.ofNat (48 + n)

/-- Digits of `n` in base 10, most significant first; structural fuel makes
the definition kernel-reducible.  The fuel `n + 1` always suffices since
`n / 10 < n` for `n ≥ 10`. -/
def natCharsAux : Nat → Nat → List Char
  | 0, _ => []
  | fuel + 1, n =>
    if n < 10 then [digitChar n]
    else natCharsAux fuel (n / 10) ++ [digitChar (n % 10)]

/-- Decimal rendering of a natural number, as Python `str` produces it. -/
def natChars (n : Nat) : List Char := natCharsAux (n + 1) n

/-- Python `str(v)` for an `int` `v`: optional minus sign followed by the
decimal digits of the absolute value. -/
def intChars (v : Int) : List Char :=
  if v < 0 then Char.ofNat 45 :: natChars v.natAbs else natChars v.toNat

/-! ## The compression loop (util.py lines 93-102)

```
trial_str = ''
for i in range(len(values)):
    if i == 0:
        trial_str += str(values[i])
    elif values[i] - (values[i - 1]) == 1:
        if i == len(values) - 1 or values[i + 1] - values[i] > 1:
            trial_str += f'-{values[i]}'
    else:
        trial_str += f', {values[i]}'
```
-/

/-- Python list subscript `l[i]` for a non-negative index; `none` models an
`IndexError`.  (The source only ever subscripts with `i`, `i - 1` under the
guard `i != 0`, and `i + 1` under the short-circuit guard
`i == len(values) - 1 or ...`.) -/
def pyGet (l : List Int) (i : Nat) : Option Int := l.get? i

/-- One iteration of the loop body at index `i`; the accumulator is `none`
once an `IndexError` has occurred. -/
def loopStep (values : List Int) (acc : Option (List Char)) (i : Nat) :
    Option (List Char) :=
  match acc with
  | none => none
  | some s =>
    if i = 0 then
      match pyGet values i with
      | none => none
      | some vi => some (s ++ intChars vi)
    else
      match pyGet values i, pyGet values (i - 1) with
      | some vi, some vprev =>
        if vi - vprev = 1 then
          -- `i == len(values) - 1 or values[i + 1] - values[i] > 1`
          if i = values.length - 1 then
            some (s ++ Char.ofNat 45 :: intChars vi)
          else
            match pyGet values (i + 1) with
            | none => none
            | some vnext =>
              if vnext - vi > 1 then some (s ++ Char.ofNat 45 :: intChars vi)
              else some s
        else
          some (s ++ Char.ofNat 44 :: Char.ofNat 32 :: intChars vi)
      | _, _ => none

/-- `trial_str` after the `for` loop, given the deduplicated list. -/
def trialChars (values : List Int) : Option (List Char) :=
  (List.range values.length).foldl (loopStep values) (some [])

/-! ## `rfind` and the final ampersand substitution (util.py lines 104-106)

```
k = trial_str.rfind(',')
if k > -1:
    trial_str = f'{trial_str[:k]} &{trial_str[k + 1:]}'
```
-/

/-- Python `s.rfind(',')`: code-point index of the last comma, `none`
standing for `-1`. -/
def rfindComma : List Char → Option Nat
  | [] => none
  | c :: rest =>
    match rfindComma rest with
    | some k => some (k + 1)
    | none => if c = Char.ofNat 44 then some 0 else none

/-- `trial_str[:k] + ' &' + trial_str[k + 1:]` when a comma exists,
otherwise the string unchanged. -/
def replaceLastComma (s : List Char) : List Char :=
  match rfindComma s with
  | none => s
  | some k => s.take k ++ Char.ofNat 32 :: Char.ofNat 38 :: s.drop (k + 1)

/-- The part of `range_str` after the `list(set(...))` step, applied to an
explicitly given deduplicated list. -/
def trialStrOf (l : List Int) : Option String :=
  (trialChars l).map (fun cs => String.mk (replaceLastComma cs))

/-! ## CPython `set` of ints: `list(set(values))` (util.py line 94)

The model follows CPython Objects/setobject.c (stable across CPython
3.6-3.12): `set_add_entry` (probing with equality checks, resize decision),
`set_insert_clean` (probing without equality checks, used by resize) and
`set_table_resize`.  Tables are `List (Option Int)` whose length is always
a power of two, so the C `index & mask` equals `index % table.length`.
Probe loops carry explicit fuel; CPython's loop always terminates because
a table below the fill threshold has an unused slot and the probe sequence
eventually visits every slot, so with the generous fuel used below the
fallback branches are unreachable on every state this file evaluates. -/

/-- Python `hash` of an `int`: modular reduction by the Mersenne prime
`2^61 - 1` preserving sign, then `-1` is replaced by `-2`. -/
def pyHashInt (v : Int) : Int :=
  let m : Nat := 2 ^ 61 - 1
  let h : Int := if v < 0 then -((v.natAbs % m : Nat) : Int) else ((v.natAbs % m : Nat) : Int)
  if h = -1 then -2 else h

/-- The C cast `(size_t)hash`: reduction modulo `2^64`. -/
def toSizeT (h : Int) : Nat := (h % (2 ^ 64 : Int)).toNat

/-- Result of probing for key `v`: an unused slot, or the key is present,
or fuel ran out (unreachable in reachable states). -/
inductive SlotResult where
  | free (i : Nat)
  | present
  | fail
deriving DecidableEq

/-- Scan `count` consecutive entries starting at slot `i` (the
`do { ... entry++; } while (probes--)` scan of `set_add_entry`):
an unused slot stops the search, a matching key reports `present`,
a colliding key moves to the next entry. -/
def scanEntries (table : List (Option Int)) (v : Int) : Nat → Nat → Option SlotResult
  | _, 0 => none
  | i, count + 1 =>
    match table.get? i with
    | none => some .fail         -- out of bounds: cannot happen, slots are masked
    | some none => some (.free i)
    | some (some w) => if w = v then some .present else scanEntries table v (i + 1) count

/-- The outer probe loop of `set_add_entry`: check slot `i` (plus
`LINEAR_PROBES = 9` linear neighbours when `i + 9 <= mask`), then
`perturb >>= 5; i = (i*5 + 1 + perturb) & mask`. -/
def probeLoop (table : List (Option Int)) (v : Int) : Nat → Nat → Nat → SlotResult
  | _, _, 0 => .fail
  | i, perturb, fuel + 1 =>
    let mask := table.length - 1
    let probes := if i + 9 ≤ mask then 9 else 0
    match scanEntries table v i (probes + 1) with
    | some r => r
    | none =>
      let perturb1 := perturb >>> 5
      probeLoop table v ((i * 5 + 1 + perturb1) % table.length) perturb1 fuel

/-- The probe loop of `set_insert_clean`: identical slot sequence, but only
unused slots stop it (no equality checks). -/
def scanEntriesClean (table : List (Option Int)) : Nat → Nat → Option Nat
  | _, 0 => none
  | i, count + 1 =>
    match table.get? i with
    | none => some i             -- out of bounds: cannot happen
    | some none => some i
    | some (some _) => scanEntriesClean table (i + 1) count

def probeLoopClean (table : List (Option Int)) : Nat → Nat → Nat → Option Nat
  | _, _, 0 => none
  | i, perturb, fuel + 1 =>
    let mask := table.length - 1
    let probes := if i + 9 ≤ mask then 9 else 0
    match scanEntriesClean table i (probes + 1) with
    | some r => some r
    | none =>
      let perturb1 := perturb >>> 5
      probeLoopClean table ((i * 5 + 1 + perturb1) % table.length) perturb1 fuel

/-- `set_insert_clean`: place `v` at the first unused slot of its probe
sequence (used only during resize, where no duplicates can occur). -/
def setInsertClean (table : List (Option Int)) (v : Int) : List (Option Int) :=
  let szt := toSizeT (pyHashInt v)
  match probeLoopClean table (szt % table.length) szt (table.length * 64 + 64) with
  | some i => table.set i (some v)
  | none => table                -- fuel exhausted: unreachable

/-- A CPython set of ints: the slot table plus the `fill` and `used`
counters (`fill = used` here since nothing is ever discarded). -/
structure PySet where
  table : List (Option Int)
  fill : Nat
  used : Nat
deriving DecidableEq

/-- `newsize = PySet_MINSIZE; while (newsize <= minused) newsize <<= 1;` -/
def newSizeLoop : Nat → Nat → Nat → Nat
  | 0, newsize, _ => newsize
  | fuel + 1, newsize, minused =>
    if newsize ≤ minused then newSizeLoop fuel (newsize * 2) minused else newsize

/-- `set_table_resize`: allocate the next power of two above `minused` and
re-insert the old entries in slot order with `set_insert_clean`;
afterwards `fill = used`. -/
def setResize (s : PySet) (minused : Nat) : PySet :=
  let newsize := newSizeLoop 64 8 minused
  let newTable := s.table.foldl
    (fun t e => match e with
      | none => t
      | some v => setInsertClean t v)
    (List.replicate newsize none)
  ⟨newTable, s.used, s.used⟩

/-- `set_add_entry`: probe, insert at an unused slot (no-op when the key is
already present), and resize to `4 * used` slots-worth once
`fill * 5 >= mask * 3` (the `used > 50000` branch doubles instead). -/
def setAdd (s : PySet) (v : Int) : PySet :=
  let szt := toSizeT (pyHashInt v)
  match probeLoop s.table v (szt % s.table.length) szt (s.table.length * 64 + 64) with
  | .present => s
  | .fail => s                   -- fuel exhausted: unreachable
  | .free i =>
    let table := s.table.set i (some v)
    let fill := s.fill + 1
    let used := s.used + 1
    if fill * 5 < (s.table.length - 1) * 3 then ⟨table, fill, used⟩
    else setResize ⟨table, fill, used⟩ (if used > 50000 then used * 2 else used * 4)

/-- `list(set(values))`: build the set by adding each element in list
order (CPython's generic-iterable path of `set_update_internal`) starting
from the 8-slot empty table, then list the occupied slots in slot order. -/
def pySetList (values : List Int) : List Int :=
  let s := values.foldl setAdd ⟨List.replicate 8 none, 0, 0⟩
  s.table.filterMap id

/-- `range_str` (util.py lines 82-107): dedup through a CPython set, run
the compression loop, replace the last comma by an ampersand.  A `none`
result models an uncaught exception (none is ever raised; see
`range_str_total_empty`). -/
def range_str (values : List Int) : Option String :=
  trialStrOf (pySetList values)

/-! ## Recursive reformulation of the loop

`goString prev rest` is the text the loop emits while consuming `rest`,
the previous element being `prev`; `goChars` adds the `i = 0` emission.
`trialChars_eq_goChars` below proves it equal to the indexed loop (and in
particular that the loop never raises an `IndexError`). -/

/-- The text the loop body emits for one element `v`, its predecessor
being `prev` and the still-unprocessed elements `rest` (so `rest = []`
exactly when `i = len(values) - 1`, and the head of `rest` is
`values[i + 1]`). -/
def emitPiece (prev v : Int) (rest : List Int) : List Char :=
  if v - prev = 1 then
    match rest with
    | [] => Char.ofNat 45 :: intChars v
    | w :: _ =>
      if w - v > 1 then Char.ofNat 45 :: intChars v else []
  else Char.ofNat 44 :: Char.ofNat 32 :: intChars v

def goString (prev : Int) : List Int → List Char
  | [] => []
  | v :: rest => emitPiece prev v rest ++ goString v rest

def goChars : List Int → List Char
  | [] => []
  | a :: rest => intChars a ++ goString a rest

/-- Kernel-computable test for strict ascent, with a bridge to `Chain'`. -/
def ascendingB : List Int → Bool
  | [] => true
  | [_] => true
  | a :: b :: t => decide (a < b) && ascendingB (b :: t)

/-! ## Specification-side rendering (spec.md section 4.2)

These definitions follow the words of the specification, to be compared
with the loop: maximal runs of consecutive integers, a run of length 1
printed as the bare number and a longer run as `start-end`, segments
joined by `", "` except that the final separator is `" & "`. -/

/-- Maximal runs of consecutive integers of `l`, each as (first, last);
`start` and `cur` are the first and last element of the currently open
run. -/
def runsAux (start cur : Int) : List Int → List (Int × Int)
  | [] => [(start, cur)]
  | v :: rest =>
    if v - cur = 1 then runsAux start v rest
    else (start, cur) :: runsAux v v rest

def runs : List Int → List (Int × Int)
  | [] => []
  | a :: rest => runsAux a a rest

/-- A run of length 1 renders as the bare number, a run of length 2 or
more as `start-end`. -/
def renderSeg (p : Int × Int) : List Char :=
  if p.1 = p.2 then intChars p.1
  else intChars p.1 ++ Char.ofNat 45 :: intChars p.2

/-- Segments joined by `", "` (plain comma join, before the ampersand
substitution). -/
def joinComma : List (List Char) → List Char
  | [] => []
  | [s] => s
  | s :: rest => s ++ Char.ofNat 44 :: Char.ofNat 32 :: joinComma rest

/-- Segments joined by `", "`, except that the separator before the last
segment is `" & "`; a single segment gets no separator at all. -/
def joinSpec : List (List Char) → List Char
  | [] => []
  | [s] => s
  | [s, t] => s ++ Char.ofNat 32 :: Char.ofNat 38 :: Char.ofNat 32 :: t
  | s :: rest => s ++ Char.ofNat 44 :: Char.ofNat 32 :: joinSpec rest

/-- The spec's description of the rendering of an ascending deduplicated
sequence. -/
def rangeStrSpec (l : List Int) : String :=
  String.mk (joinSpec ((runs l).map renderSeg))

/-- The tail of a comma join after its first segment: empty for no further
segments, otherwise `", "` followed by the join of the rest. -/
def sepTail : List (List Char) → List Char
  | [] => []
  | s :: rest => Char.ofNat 44 :: Char.ofNat 32 :: joinComma (s :: rest)

/-! ## The logging registry and `get_logger` (util.py lines 110-153)

The process-wide `logging` registry is modelled as an association list of
channel names to channels (`logging.getLogger(name)` creates the channel
on first lookup, with level `NOTSET = 0` and no handlers).  The empty
name stands for the root logger (`if not name: log = logging.getLogger()`).
A handler record carries exactly the data the source sets on a handler:
its `name`, its own level, its formatter's format string, date format and
colour policy, and the destination (console or file path).  Attaching
`colorlog.ColoredFormatter(cformat, date_format, no_color=True)` is
modelled with an empty active colour mapping, since `no_color=True`
suppresses colourisation. -/

structure Handler where
  hname : Option String
  hlevel : Nat
  fmt : String
  dateFmt : String
  fmtNoColor : Bool
  fmtColors : List (String × String)
  isFile : Bool
  filename : Option String
deriving DecidableEq

structure Logger where
  llevel : Nat
  handlers : List Handler
deriving DecidableEq

structure LogState where
  loggers : List (String × Logger)
deriving DecidableEq

def emptyLogState : LogState := ⟨[]⟩

/-- `logging.getLogger(key)`: the registered channel, or a fresh one with
level `NOTSET = 0` and no handlers. -/
def getChannel (s : LogState) (key : String) : Logger :=
  match s.loggers.lookup key with
  | some lg => lg
  | none => ⟨0, []⟩

/-- Store the (possibly fresh) channel back into the registry. -/
def setChannel (s : LogState) (key : String) (lg : Logger) : LogState :=
  ⟨(key, lg) :: s.loggers.filter (fun p => p.1 != key)⟩

def formatStr : String :=
  "%(asctime)s.%(msecs)d %(levelname)-8s [%(filename)s:%(lineno)d] %(message)s"

def dateFormat : String := "%Y-%m-%d %H:%M:%S"

def cformat : String := "%(log_color)s" ++ formatStr

def logColors : List (String × String) :=
  [("DEBUG", "green"), ("INFO", "cyan"), ("WARNING", "bold_yellow"),
   ("ERROR", "bold_red"), ("CRITICAL", "bold_purple")]

/-- util.py lines 140-145: `logging.FileHandler(filename=file)` with a
`ColoredFormatter(cformat, date_format, no_color=True)`, named `str(file)`
and set to `level`. -/
def mkFileHandler (file : String) (level : Nat) : Handler :=
  { hname := some file, hlevel := level, fmt := cformat, dateFmt := dateFormat,
    fmtNoColor := true, fmtColors := [], isFile := true, filename := some file }

/-- util.py lines 147-152: `logging.StreamHandler(stream=sys.stdout)` with
`ColoredFormatter(cformat, date_format, **fkwargs)` where `fkwargs` is
`{'no_color': True}` when `no_color` else `{'log_colors': colors}`, named
`f'{name}_auto'` and set to `level`. -/
def mkStreamHandler (name : String) (level : Nat) (noColor : Bool) : Handler :=
  { hname := some (name ++ "_auto"), hlevel := level, fmt := cformat,
    dateFmt := dateFormat, fmtNoColor := noColor,
    fmtColors := if noColor then [] else logColors,
    isFile := false, filename := none }

/-- `get_logger(name, level, file, no_color)` (util.py lines 110-153).
`file` is the string spelling `str(file)` of the argument; `none` models
`file=None`, and a `some ""` is falsy like Python's `if file` (an empty
string argument skips the file branch). -/
def get_logger (s : LogState) (name : String) (level : Nat)
    (file : Option String) (noColor : Bool) : LogState :=
  -- `log = logging.getLogger()` when `not name`, else `logging.getLogger(name)`;
  -- the registry key of the root logger is the empty name here.
  let log := getChannel s name
  -- `log.setLevel(level)`
  let log : Logger := { log with llevel := level }
  -- `if file and not any(map(lambda x: x.name == str(file), log.handlers)):`
  let log : Logger :=
    match file with
    | some f =>
      if f != "" && !(log.handlers.any fun x => x.hname == some f) then
        { log with handlers := log.handlers ++ [mkFileHandler f level] }
      else log
    | none => log
  -- `if not any(map(lambda x: x.name == f'{name}_auto', log.handlers)):`
  let log : Logger :=
    if !(log.handlers.any fun x => x.hname == some (name ++ "_auto")) then
      { log with handlers := log.handlers ++ [mkStreamHandler name level noColor] }
    else log
  setChannel s name log

/-- Number of lines a single record emitted at level `lvl` on the channel
adds to the file `f`: one per attached file handler for `f` whose own
threshold passes, provided the channel's (set, non-`NOTSET`) level passes.
Models `Logger.callHandlers` restricted to the channel's own handlers;
ancestor propagation only reaches other channels' handlers and none of the
states considered here attach a handler for `f` elsewhere. -/
def linesToFile (lg : Logger) (f : String) (lvl : Nat) : Nat :=
  if lg.llevel ≤ lvl then
    (lg.handlers.filter (fun h => h.filename == some f && decide (h.hlevel ≤ lvl))).length
  else 0

def countConsole (lg : Logger) : Nat :=
  (lg.handlers.filter (fun h => !h.isFile)).length

def countFileSinks (lg : Logger) (f : String) : Nat :=
  (lg.handlers.filter (fun h => h.isFile && h.hname == some f)).length

def countByName (lg : Logger) (n : String) : Nat :=
  (lg.handlers.filter (fun h => h.hname == some n)).length

/-- `N` successive `get_logger` calls with the same `name`, no `file`, and
per-call levels and colour flags. -/
def callN (s : LogState) (name : String) (lvls : Nat → Nat) (ncs : Nat → Bool) :
    Nat → LogState
  | 0 => s
  | n + 1 => get_logger (callN s name lvls ncs n) name (lvls n) none (ncs n)

/-! ## File-only provisioning `log_to_file` (spec-modelled) -/

def INFO : Nat := 20

/-- A `log_to_file` argument: either a channel name or an already-obtained
channel (a channel is identified by its registry name). -/
inductive LogRef where
  | byName (n : String)
  | byChannel (n : String)
deriving DecidableEq

/-- Modelled from the spec: `log_to_file` is missing from
src/iblutil/util.py; only its tests exist (src/tests/test_util.py,
`test_file_handler_stand_alone`, `test_file_handler_log_input`).  Per the
spec it accepts either a channel name or an already-obtained channel,
computes the default path `<home>/.ibl_logs/<filename or channel name>`,
creates the parent directory on demand (a filesystem side effect outside
this state model), and attaches a file sink there under the same
deduplication rule as `get_logger` (handler named with the path string),
without failing when that exact sink is already attached.  The channel
and sink thresholds are set to `INFO` so that the tests' `info` emissions
reach the file. -/
def log_to_file (home : String) (s : LogState) (ref : LogRef)
    (filename : Option String) : LogState × String :=
  let n := match ref with | .byName m => m | .byChannel m => m
  let path := home ++ "/.ibl_logs/" ++ (match filename with | some f => f | none => n)
  let log := getChannel s n
  let log : Logger := { log with llevel := INFO }
  let log : Logger :=
    if !(log.handlers.any fun x => x.hname == some path) then
      { log with handlers := log.handlers ++ [mkFileHandler path INFO] }
    else log
  (setChannel s n log, path)

/-! ## The indexed loop equals the recursive reformulation -/

theorem pyGet_append (pre : List Int) (x : Int) (l2 : List Int) (k : Nat) :
    pyGet (pre ++ x :: l2) (pre.length + k) = pyGet (x :: l2) k := by
  induction pre with
  | nil => simp
  | cons a t ih =>
    show pyGet (a :: (t ++ x :: l2)) (t.length + 1 + k) = pyGet (x :: l2) k
    have h1 : t.length + 1 + k = (t.length + k) + 1 := by omega
    rw [h1]
    exact ih

/-- The loop body at indices `1, ..., len - 1`, related to `goString`:
if `values = pre ++ prev :: rest`, folding the body over the remaining
indices emits exactly `goString prev rest`. -/
theorem foldl_loopStep_go (values : List Int) :
    ∀ (rest pre : List Int) (prev : Int) (acc : List Char),
    values = pre ++ prev :: rest →
    (List.range' (pre.length + 1) rest.length).foldl (loopStep values) (some acc)
      = some (acc ++ goString prev rest) := by
  intro rest
  induction rest with
  | nil =>
    intro pre prev acc h
    simp [goString]
  | cons v rest' ih =>
    intro pre prev acc h
    simp only [List.length_cons]
    rw [List.range'_succ, List.foldl_cons]
    have hv : pyGet values (pre.length + 1) = some v := by
      rw [h]; exact pyGet_append pre prev (v :: rest') 1
    have hprev : pyGet values (pre.length + 1 - 1) = some prev := by
      have h0 : pre.length + 1 - 1 = pre.length + 0 := by omega
      rw [h0, h]; exact pyGet_append pre prev (v :: rest') 0
    have hlen : values.length = pre.length + rest'.length + 2 := by
      rw [h]; simp [List.length_append]; omega
    have hi0 : ¬ (pre.length + 1 = 0) := by omega
    have hstep : loopStep values (some acc) (pre.length + 1)
        = some (acc ++ emitPiece prev v rest') := by
      cases rest' with
      | nil =>
        have hlast : pre.length + 1 = values.length - 1 := by
          simp only [List.length_nil] at hlen; omega
        simp only [loopStep, if_neg hi0, hv, hprev, if_pos hlast]
        by_cases hd : v - prev = 1 <;> simp [hd, emitPiece]
      | cons w r2 =>
        have hlast : ¬ (pre.length + 1 = values.length - 1) := by
          simp only [List.length_cons] at hlen; omega
        have hw : pyGet values (pre.length + 1 + 1) = some w := by
          have h2 : pre.length + 1 + 1 = pre.length + 2 := by omega
          rw [h2, h]; exact pyGet_append pre prev (v :: w :: r2) 2
        simp only [loopStep, if_neg hi0, hv, hprev, if_neg hlast, hw]
        by_cases hd : v - prev = 1 <;> by_cases hg : w - v > 1 <;>
          simp [hd, hg, emitPiece]
    rw [hstep]
    have h2 : values = (pre ++ [prev]) ++ v :: rest' := by simp [h]
    have hrec := ih (pre ++ [prev]) v (acc ++ emitPiece prev v rest') h2
    have h3 : (pre ++ [prev]).length = pre.length + 1 := by simp
    rw [h3] at hrec
    rw [hrec, goString]
    simp [List.append_assoc]

/-- The indexed `for` loop (util.py lines 95-102) never raises and equals
the recursive reformulation. -/
theorem trialChars_eq_goChars (values : List Int) :
    trialChars values = some (goChars values) := by
  cases values with
  | nil => rfl
  | cons a rest =>
    unfold trialChars
    rw [List.range_eq_range']
    show (List.range' 0 (rest.length + 1)).foldl (loopStep (a :: rest)) (some []) = _
    rw [List.range'_succ, List.foldl_cons]
    have h0 : loopStep (a :: rest) (some []) 0 = some ([] ++ intChars a) := by
      simp [loopStep, pyGet]
    rw [h0]
    have := foldl_loopStep_go (a :: rest) rest [] a (intChars a) rfl
    simp only [List.length_nil, Nat.zero_add] at this
    simp only [List.nil_append, Nat.zero_add]
    rw [this, goChars]

/-! ## Relating the loop output to the spec's run rendering -/

/-- `runsAux` always yields the currently open run first; its end value and
the remaining runs do not depend on the recorded start. -/
theorem runsAux_shape :
    ∀ (l : List Int) (s1 s2 c : Int), ∃ y r,
      runsAux s1 c l = (s1, y) :: r ∧ runsAux s2 c l = (s2, y) :: r ∧ c ≤ y := by
  intro l
  induction l with
  | nil => intro s1 s2 c; exact ⟨c, [], rfl, rfl, le_refl c⟩
  | cons v rest ih =>
    intro s1 s2 c
    by_cases hd : v - c = 1
    · obtain ⟨y, r, h1, h2, hy⟩ := ih s1 s2 v
      exact ⟨y, r, by simp [runsAux, hd, h1], by simp [runsAux, hd, h2], by omega⟩
    · exact ⟨c, runsAux v v rest, by simp [runsAux, hd], by simp [runsAux, hd], le_refl c⟩

theorem joinComma_cons_sepTail (s : List Char) (rest : List (List Char)) :
    joinComma (s :: rest) = s ++ sepTail rest := by
  cases rest with
  | nil => simp [joinComma, sepTail]
  | cons t ts => rfl

theorem sepTail_cons (s : List Char) (rest : List (List Char)) :
    sepTail (s :: rest) = Char.ofNat 44 :: Char.ofNat 32 :: (s ++ sepTail rest) := by
  rw [sepTail, joinComma_cons_sepTail]

theorem renderSeg_split (v y : Int) :
    renderSeg (v, y) = intChars v ++ (if y = v then [] else Char.ofNat 45 :: intChars y) := by
  by_cases he : y = v
  · simp [renderSeg, he]
  · have hvy : ¬ (v = y) := fun h => he h.symm
    simp [renderSeg, hvy, he]

/-- Main invariant: while the loop walks a strictly ascending list, the
text still to be emitted is the missing end of the open run followed by
the remaining runs. -/
theorem goString_runsAux :
    ∀ (l : List Int) (cur y : Int) (restR : List (Int × Int)),
    List.Chain' (· < ·) (cur :: l) →
    runsAux cur cur l = (cur, y) :: restR →
    goString cur l
      = (if y = cur then [] else Char.ofNat 45 :: intChars y)
        ++ sepTail (restR.map renderSeg) := by
  intro l
  induction l with
  | nil =>
    intro cur y restR _ heq
    rw [runsAux] at heq
    injection heq with h1 h2
    injection h1 with _ hb
    subst hb; subst h2
    simp [goString, sepTail]
  | cons v rest ih =>
    intro cur y restR hch heq
    rw [List.chain'_cons] at hch
    obtain ⟨hcv, hch'⟩ := hch
    by_cases hd : v - cur = 1
    · cases rest with
      | nil =>
        rw [runsAux, if_pos hd, runsAux] at heq
        injection heq with h1 h2
        injection h1 with _ hb
        subst hb; subst h2
        have hne : ¬ (v = cur) := by omega
        simp [goString, emitPiece, hd, hne, sepTail]
      | cons w r2 =>
        rw [List.chain'_cons] at hch'
        obtain ⟨hvw, hch2⟩ := hch'
        by_cases hg : w - v > 1
        · -- the run ends at v; the loop emits "-v" now
          have hwv : ¬ (w - v = 1) := by omega
          rw [runsAux, if_pos hd, runsAux, if_neg hwv] at heq
          injection heq with h1 h2
          injection h1 with _ hb
          subst hb; subst h2
          have hih := ih v v (runsAux w w r2)
            (by rw [List.chain'_cons]; exact ⟨hvw, hch2⟩)
            (by rw [runsAux, if_neg hwv])
          rw [goString, hih]
          have hne : ¬ (v = cur) := by omega
          simp [emitPiece, hd, hg, hne]
        · -- the run continues through w
          have hwv : w - v = 1 := by omega
          rw [runsAux, if_pos hd, runsAux, if_pos hwv] at heq
          obtain ⟨y0, r0, hcw, hvw2, hwy⟩ := runsAux_shape r2 cur v w
          rw [hcw] at heq
          injection heq with h1 h2
          injection h1 with _ hb
          subst hb; subst h2
          have hih := ih v y0 r0
            (by rw [List.chain'_cons]; exact ⟨hvw, hch2⟩)
            (by rw [runsAux, if_pos hwv]; exact hvw2)
          rw [goString, hih]
          have hnev : ¬ (y0 = v) := by omega
          have hnec : ¬ (y0 = cur) := by omega
          simp [emitPiece, hd, hg, hnev, hnec]
    · -- v starts a new run; the loop emits ", v" now
      rw [runsAux, if_neg hd] at heq
      injection heq with h1 h2
      injection h1 with _ hb
      subst hb; subst h2
      obtain ⟨y2, r2, h1, _, hy2⟩ := runsAux_shape rest v v v
      have hih := ih v y2 r2 hch' h1
      rw [goString, hih, h1, List.map_cons, sepTail_cons, renderSeg_split]
      simp [emitPiece, hd, List.append_assoc]

/-- On a strictly ascending list the loop emits the comma join of the
rendered maximal runs. -/
theorem goChars_joinComma (l : List Int) (h : List.Chain' (· < ·) l) :
    goChars l = joinComma ((runs l).map renderSeg) := by
  cases l with
  | nil => rfl
  | cons a rest =>
    obtain ⟨y, r, h1, _, hy⟩ := runsAux_shape rest a a a
    have hm := goString_runsAux rest a y r h h1
    rw [goChars, hm, runs, h1, List.map_cons, joinComma_cons_sepTail, renderSeg_split]
    simp [List.append_assoc]

theorem chain'_lt_of_ascendingB :
    ∀ l : List Int, ascendingB l = true → List.Chain' (· < ·) l := by
  intro l
  induction l with
  | nil => intro _; exact List.chain'_nil
  | cons a t ih =>
    cases t with
    | nil => intro _; exact List.chain'_singleton a
    | cons b t2 =>
      intro h
      rw [ascendingB, Bool.and_eq_true, decide_eq_true_eq] at h
      exact List.chain'_cons.mpr ⟨h.1, ih h.2⟩

/-! ## Comma-freeness of rendered segments and the ampersand substitution -/

theorem digit_ne_comma (n : Nat) (h : n < 10) : digitChar n ≠ Char.ofNat 44 := by
  interval_cases n <;> decide

theorem comma_notMem_natCharsAux :
    ∀ (fuel n : Nat), Char.ofNat 44 ∉ natCharsAux fuel n := by
  intro fuel
  induction fuel with
  | zero => intro n; simp [natCharsAux]
  | succ f ih =>
    intro n
    rw [natCharsAux]
    by_cases h : n < 10
    · simp only [if_pos h, List.mem_singleton]
      exact fun hc => digit_ne_comma n h hc.symm
    · simp only [if_neg h, List.mem_append, List.mem_singleton]
      rintro (hc | hc)
      · exact ih (n / 10) hc
      · exact digit_ne_comma (n % 10) (Nat.mod_lt n (by omega)) hc.symm

theorem comma_notMem_intChars (v : Int) : Char.ofNat 44 ∉ intChars v := by
  rw [intChars]
  by_cases h : v < 0
  · simp only [if_pos h, List.mem_cons]
    rintro (hc | hc)
    · exact absurd hc (by decide)
    · exact comma_notMem_natCharsAux _ _ hc
  · simp only [if_neg h]
    exact comma_notMem_natCharsAux _ _

theorem comma_notMem_renderSeg (p : Int × Int) : Char.ofNat 44 ∉ renderSeg p := by
  rw [renderSeg]
  by_cases h : p.1 = p.2
  · simp only [if_pos h]; exact comma_notMem_intChars _
  · simp only [if_neg h, List.mem_append, List.mem_cons]
    rintro (hc | hc | hc)
    · exact comma_notMem_intChars _ hc
    · exact absurd hc (by decide)
    · exact comma_notMem_intChars _ hc

theorem rfindComma_eq_none (l : List Char) (h : Char.ofNat 44 ∉ l) :
    rfindComma l = none := by
  induction l with
  | nil => rfl
  | cons c rest ih =>
    rw [rfindComma, ih (fun hc => h (List.mem_cons_of_mem c hc))]
    simp only [List.mem_cons, not_or] at h
    rw [if_neg (fun hc => h.1 hc.symm)]

theorem rfindComma_append_last (X B : List Char) (hB : Char.ofNat 44 ∉ B) :
    rfindComma (X ++ Char.ofNat 44 :: B) = some X.length := by
  induction X with
  | nil => rw [List.nil_append, rfindComma, rfindComma_eq_none B hB]; rfl
  | cons c X2 ih => rw [List.cons_append, rfindComma, ih]; rfl

/-- `joinComma` over a list ending in `last` exposes its final `", "`. -/
theorem joinComma_concat (init : List (List Char)) (last : List Char) (h : init ≠ []) :
    joinComma (init ++ [last])
      = joinComma init ++ Char.ofNat 44 :: Char.ofNat 32 :: last := by
  induction init with
  | nil => exact absurd rfl h
  | cons a t ih =>
    cases t with
    | nil => rfl
    | cons b t2 =>
      have h1 : joinComma ((a :: b :: t2) ++ [last])
          = a ++ Char.ofNat 44 :: Char.ofNat 32 :: joinComma ((b :: t2) ++ [last]) := rfl
      have h2 : joinComma (a :: b :: t2)
          = a ++ Char.ofNat 44 :: Char.ofNat 32 :: joinComma (b :: t2) := rfl
      rw [h1, ih (by simp), h2]
      simp [List.append_assoc]

/-- `joinSpec` over a list ending in `last` is the plain comma join of the
initial part followed by `" & "` and the last segment. -/
theorem joinSpec_concat (init : List (List Char)) (last : List Char) (h : init ≠ []) :
    joinSpec (init ++ [last])
      = joinComma init ++ Char.ofNat 32 :: Char.ofNat 38 :: Char.ofNat 32 :: last := by
  induction init with
  | nil => exact absurd rfl h
  | cons a t ih =>
    cases t with
    | nil => rfl
    | cons b t2 =>
      have h1 : joinSpec ((a :: b :: t2) ++ [last])
          = a ++ Char.ofNat 44 :: Char.ofNat 32 :: joinSpec ((b :: t2) ++ [last]) := by
        cases t2 with
        | nil => rfl
        | cons c t3 => rfl
      have h2 : joinComma (a :: b :: t2)
          = a ++ Char.ofNat 44 :: Char.ofNat 32 :: joinComma (b :: t2) := rfl
      rw [h1, ih (by simp), h2]
      simp [List.append_assoc]

/-- Replacing the last comma of the plain `", "` join by `" &"` produces
exactly the spec's join with a final `" & "` separator, provided no
segment contains a comma. -/
theorem replaceLastComma_joinComma (segs : List (List Char))
    (h : ∀ s ∈ segs, Char.ofNat 44 ∉ s) :
    replaceLastComma (joinComma segs) = joinSpec segs := by
  rcases List.eq_nil_or_concat segs with hnil | ⟨init, last, hcat⟩
  · subst hnil; rfl
  · subst hcat
    rw [List.concat_eq_append]
    cases init with
    | nil =>
      have hfree : Char.ofNat 44 ∉ joinComma [last] := by
        simpa [joinComma] using h last (by simp)
      rw [List.nil_append, replaceLastComma, rfindComma_eq_none _ hfree]
      rfl
    | cons a t =>
      have hlast : Char.ofNat 44 ∉ last := h last (by simp)
      rw [joinComma_concat (a :: t) last (by simp), joinSpec_concat (a :: t) last (by simp)]
      have hfind : rfindComma (joinComma (a :: t) ++ Char.ofNat 44 :: Char.ofNat 32 :: last)
          = some (joinComma (a :: t)).length :=
        rfindComma_append_last _ _ (by
          simp only [List.mem_cons, not_or]
          exact ⟨by decide, hlast⟩)
      rw [replaceLastComma, hfind]
      have htake : (joinComma (a :: t) ++ Char.ofNat 44 :: Char.ofNat 32 :: last).take
          (joinComma (a :: t)).length = joinComma (a :: t) := List.take_left _ _
      have hdrop : (joinComma (a :: t) ++ Char.ofNat 44 :: Char.ofNat 32 :: last).drop
          ((joinComma (a :: t)).length + 1) = Char.ofNat 32 :: last := by
        have : joinComma (a :: t) ++ Char.ofNat 44 :: Char.ofNat 32 :: last
            = (joinComma (a :: t) ++ [Char.ofNat 44]) ++ Char.ofNat 32 :: last := by
          simp [List.append_assoc]
        rw [this]
        exact List.drop_left' (by simp)
      show (joinComma (a :: t) ++ Char.ofNat 44 :: Char.ofNat 32 :: last).take
            (joinComma (a :: t)).length ++
          Char.ofNat 32 :: Char.ofNat 38 ::
            (joinComma (a :: t) ++ Char.ofNat 44 :: Char.ofNat 32 :: last).drop
              ((joinComma (a :: t)).length + 1)
        = joinComma (a :: t) ++ Char.ofNat 32 :: Char.ofNat 38 :: Char.ofNat 32 :: last
      rw [htake, hdrop]

/-! ## Claim theorems for `range_str` -/

/-- C6: `range_str` on the two documented example inputs returns exactly
the documented strings (evaluating the full pipeline, including the
CPython set model, whose iteration happens to be ascending here). -/
theorem range_str_doc_examples :
    range_str [1, 2, 3, 4, 5, 6, 7, 8, 12, 17] = some ("1-8, 12 & 17")
      ∧ range_str [0, 6, 7, 10, 11, 12, 30, 30] = some ("0, 6-7, 10-12 & 30") := by
  constructor <;> decide

/-- C3 (counter-evidence): `range_str` does not sort.  On `[1, 8]` the
CPython set iterates `[8, 1]` (8 hashes to slot 0 of the 8-slot table, 1
to slot 1), so the segments come out in descending order: the result is
`"8 & 1"`, not the ascending `"1 & 8"` the claim requires. -/
theorem range_str_unsorted_on_collision :
    range_str [1, 8] = some ("8 & 1") ∧ pySetList [1, 8] = [8, 1]
      ∧ ("8 & 1" : String) ≠ ("1 & 8" : String) := by
  refine ⟨by decide, by decide, by decide⟩

/-- C4 (counter-evidence): `[0, 8]` and `[8, 0]` contain the same set of
distinct values, yet `range_str` maps them to different strings: 0 and 8
collide at slot 0 of the 8-slot table, so the set's iteration order
follows the insertion order. -/
theorem range_str_depends_on_input_order :
    range_str [0, 8] = some ("0 & 8") ∧ range_str [8, 0] = some ("8 & 0")
      ∧ range_str [0, 8] ≠ range_str [8, 0] := by
  refine ⟨by decide, by decide, by decide⟩

/-- C5: whenever the deduplicated values are processed in ascending order,
`range_str` renders each maximal run of length 1 as the bare number and
each longer run as `start-end`, joins the segments with `", "`, and
replaces exactly the last comma by `" &"`, which is precisely the spec's
join with a final `" & "` separator (and no separator for a single
segment): `rangeStrSpec`. -/
theorem range_str_run_rendering (values : List Int)
    (h : List.Chain' (· < ·) (pySetList values)) :
    range_str values = some (rangeStrSpec (pySetList values)) := by
  rw [range_str, trialStrOf, trialChars_eq_goChars, Option.map_some']
  have hfree : ∀ s ∈ (runs (pySetList values)).map renderSeg, Char.ofNat 44 ∉ s := by
    intro s hs
    obtain ⟨p, _, hp⟩ := List.mem_map.mp hs
    exact hp ▸ comma_notMem_renderSeg p
  rw [rangeStrSpec, goChars_joinComma _ h, replaceLastComma_joinComma _ hfree]

theorem range_str_run_rendering_witness :
    List.Chain' (· < ·) (pySetList [5, 1, 0])
      ∧ range_str [5, 1, 0] = some (rangeStrSpec (pySetList [5, 1, 0])) :=
  ⟨chain'_lt_of_ascendingB _ (by decide),
    range_str_run_rendering [5, 1, 0] (chain'_lt_of_ascendingB _ (by decide))⟩

/-- C7: `range_str` returns a string (never an error) on every finite list
of integers; on the empty list it returns the empty string; negative
values go through the same integer-difference adjacency, e.g.
`[-3, -2, -1]` collapses to the single run `"-3--1"`. -/
theorem range_str_total_empty :
    (∀ values : List Int, ∃ s, range_str values = some s)
      ∧ range_str [] = some ("")
      ∧ range_str [-3, -2, -1] = some ("-3--1") := by
  refine ⟨fun values => ⟨String.mk (replaceLastComma (goChars (pySetList values))), ?_⟩, ?_, ?_⟩
  · rw [range_str, trialStrOf, trialChars_eq_goChars, Option.map_some']
  · decide
  · decide

/-! ## Registry lemmas and claim theorems for `get_logger` -/

theorem getChannel_setChannel_same (s : LogState) (k : String) (lg : Logger) :
    getChannel (setChannel s k lg) k = lg := by
  simp [getChannel, setChannel, List.lookup]

theorem setChannel_setChannel_same (s : LogState) (k : String) (lg lg2 : Logger) :
    setChannel (setChannel s k lg) k lg2 = setChannel s k lg2 := by
  rw [setChannel, setChannel, setChannel]
  have h1 : ((k, lg) :: s.loggers.filter (fun p => p.1 != k)).filter (fun p => p.1 != k)
      = s.loggers.filter (fun p => p.1 != k) := by
    rw [List.filter_cons]
    have : ((k, lg).1 != k) = false := by simp
    rw [this]
    simp only [Bool.false_eq_true, if_false]
    exact List.filter_eq_self.mpr (fun a ha => (List.mem_filter.mp ha).2)
  rw [h1]

theorem callN_handlers_eq (s0 : LogState) (name : String)
    (lvls : Nat → Nat) (ncs : Nat → Bool)
    (hfresh : (getChannel s0 name).handlers = []) :
    ∀ N, 1 ≤ N →
      getChannel (callN s0 name lvls ncs N) name
        = ⟨lvls (N - 1), [mkStreamHandler name (lvls 0) (ncs 0)]⟩ := by
  intro N
  induction N with
  | zero => intro h; omega
  | succ n ih =>
    intro _
    by_cases hn : 1 ≤ n
    · have hprev := ih hn
      show getChannel (get_logger (callN s0 name lvls ncs n) name (lvls n) none (ncs n)) name = _
      rw [get_logger, getChannel_setChannel_same, hprev]
      simp [mkStreamHandler]
    · have hn0 : n = 0 := by omega
      subst hn0
      show getChannel (get_logger s0 name (lvls 0) none (ncs 0)) name = _
      rw [get_logger, getChannel_setChannel_same, hfresh]
      simp [hfresh]

/-- C1: from a fresh channel, `N >= 1` calls of `get_logger` with the same
name and no file argument (levels and colour flags arbitrary per call)
leave exactly one console sink attached - never `N`. -/
theorem get_logger_console_sink_unique (s0 : LogState) (name : String)
    (lvls : Nat → Nat) (ncs : Nat → Bool) (N : Nat)
    (hfresh : (getChannel s0 name).handlers = []) (hN : 1 ≤ N) :
    countConsole (getChannel (callN s0 name lvls ncs N) name) = 1 := by
  rw [callN_handlers_eq s0 name lvls ncs hfresh N hN]
  simp [countConsole, mkStreamHandler]

theorem get_logger_console_sink_unique_witness :
    ((getChannel emptyLogState ("gnagna")).handlers = [] ∧ 1 ≤ 3)
      ∧ countConsole
          (getChannel (callN emptyLogState ("gnagna") (fun _ => 20) (fun _ => false) 3)
            ("gnagna")) = 1 :=
  ⟨⟨by decide, by decide⟩,
    get_logger_console_sink_unique emptyLogState ("gnagna") (fun _ => 20) (fun _ => false) 3
      (by decide) (by decide)⟩

theorem get_logger_file_first_call (s0 : LogState) (name f : String) (lvl : Nat)
    (nc : Bool) (hfresh : (getChannel s0 name).handlers = []) (hf : f ≠ "") :
    getChannel (get_logger s0 name lvl (some f) nc) name
      = ⟨lvl, mkFileHandler f lvl ::
          (if name ++ "_auto" = f then [] else [mkStreamHandler name lvl nc])⟩ := by
  rw [get_logger, getChannel_setChannel_same, hfresh]
  by_cases hfa : name ++ "_auto" = f
  · simp [hfresh, hf, hfa, mkFileHandler]
  · have hfa2 : ¬ (f = name ++ "_auto") := fun h => hfa h.symm
    simp [hfresh, hf, hfa, hfa2, mkFileHandler]

theorem get_logger_file_second_call (s1 : LogState) (name f : String) (lvl lvl2 : Nat)
    (nc nc2 : Bool) (hs : getChannel s1 name
      = ⟨lvl, mkFileHandler f lvl ::
          (if name ++ "_auto" = f then [] else [mkStreamHandler name lvl nc])⟩) :
    getChannel (get_logger s1 name lvl2 (some f) nc2) name
      = ⟨lvl2, mkFileHandler f lvl ::
          (if name ++ "_auto" = f then [] else [mkStreamHandler name lvl nc])⟩ := by
  rw [get_logger, getChannel_setChannel_same, hs]
  by_cases hfa : name ++ "_auto" = f
  · simp [hfa, mkFileHandler]
  · simp [hfa, mkFileHandler, mkStreamHandler]

/-- C2: two `get_logger` calls with the same name and file path leave
exactly one file sink for that path, and a record emitted after each call
lands in the file exactly once per emission: two lines after two
emissions, not four. -/
theorem get_logger_file_sink_dedup_two_calls (s0 : LogState) (name f : String)
    (lvl e : Nat) (nc1 nc2 : Bool)
    (hfresh : (getChannel s0 name).handlers = []) (hf : f ≠ "") (hle : lvl ≤ e) :
    countFileSinks
        (getChannel (get_logger (get_logger s0 name lvl (some f) nc1) name lvl (some f) nc2) name) f
        = 1
      ∧ linesToFile (getChannel (get_logger s0 name lvl (some f) nc1) name) f e
        + linesToFile
            (getChannel (get_logger (get_logger s0 name lvl (some f) nc1) name lvl (some f) nc2) name)
            f e
        = 2 := by
  have h1 := get_logger_file_first_call s0 name f lvl nc1 hfresh hf
  have h2 := get_logger_file_second_call (get_logger s0 name lvl (some f) nc1)
    name f lvl lvl nc1 nc2 h1
  rw [h1, h2]
  by_cases hfa : name ++ "_auto" = f <;>
    simp [hfa, countFileSinks, linesToFile, mkFileHandler, mkStreamHandler, hle]

theorem get_logger_file_sink_dedup_two_calls_witness :
    ((getChannel emptyLogState ("tutu")).handlers = [] ∧ ("log.txt" : String) ≠ ("")
        ∧ 20 ≤ 20)
      ∧ countFileSinks
          (getChannel
            (get_logger (get_logger emptyLogState ("tutu") 20 (some ("log.txt")) true)
              ("tutu") 20 (some ("log.txt")) false) ("tutu")) ("log.txt") = 1
      ∧ linesToFile
            (getChannel (get_logger emptyLogState ("tutu") 20 (some ("log.txt")) true) ("tutu"))
            ("log.txt") 20
          + linesToFile
              (getChannel
                (get_logger (get_logger emptyLogState ("tutu") 20 (some ("log.txt")) true)
                  ("tutu") 20 (some ("log.txt")) false) ("tutu"))
              ("log.txt") 20
          = 2 := by
  refine ⟨⟨by decide, by decide, by decide⟩, ?_, ?_⟩
  · exact (get_logger_file_sink_dedup_two_calls emptyLogState ("tutu") ("log.txt") 20 20
      true false (by decide) (by decide) (by decide)).1
  · exact (get_logger_file_sink_dedup_two_calls emptyLogState ("tutu") ("log.txt") 20 20
      true false (by decide) (by decide) (by decide)).2

/-- C8: every `get_logger` call sets the channel's threshold to the
requested level (last caller wins), and only ever appends new sinks: the
already-attached handlers - name, own threshold, formatter, colour
policy, destination - survive the call byte for byte. -/
theorem get_logger_frame_preserves_sinks (s : LogState) (name : String) (level : Nat)
    (file : Option String) (nc : Bool) :
    (getChannel (get_logger s name level file nc) name).llevel = level
      ∧ ∃ tail, (getChannel (get_logger s name level file nc) name).handlers
          = (getChannel s name).handlers ++ tail := by
  cases file with
  | none =>
    rw [get_logger, getChannel_setChannel_same]
    by_cases h2 : ((getChannel s name).handlers.any
        fun x => x.hname == some (name ++ "_auto")) = true
    · exact ⟨by simp [h2], [], by simp [h2]⟩
    · exact ⟨by simp [h2], [mkStreamHandler name level nc], by simp [h2]⟩
  | some f =>
    rw [get_logger, getChannel_setChannel_same]
    by_cases h1 : (f != "" && !((getChannel s name).handlers.any
        fun x => x.hname == some f)) = true
    · by_cases h2 : (((getChannel s name).handlers ++ [mkFileHandler f level]).any
          fun x => x.hname == some (name ++ "_auto")) = true
      · exact ⟨by simp [h1, h2], [mkFileHandler f level], by simp [h1, h2]⟩
      · exact ⟨by simp [h1, h2], [mkFileHandler f level, mkStreamHandler name level nc],
          by simp [h1, h2]⟩
    · by_cases h2 : ((getChannel s name).handlers.any
          fun x => x.hname == some (name ++ "_auto")) = true
      · exact ⟨by simp [h1, h2], [], by simp [h1, h2]⟩
      · exact ⟨by simp [h1, h2], [mkStreamHandler name level nc], by simp [h1, h2]⟩

theorem get_logger_countByName_update (s : LogState) (name f : String)
    (level : Nat) (nc : Bool) (hf : f ≠ "") :
    countByName (getChannel (get_logger s name level (some f) nc) name) f
      = countByName (getChannel s name) f
        + (if (getChannel s name).handlers.any (fun h => h.hname == some f) then 0 else 1) := by
  rw [get_logger, getChannel_setChannel_same]
  by_cases hany : ((getChannel s name).handlers.any fun h => h.hname == some f) = true
  · by_cases hsc : ((getChannel s name).handlers.any
        fun x => x.hname == some (name ++ "_auto")) = true
    · simp [hany, hsc, countByName]
    · have hfa : ¬ (name ++ "_auto" = f) := by
        intro he; rw [he] at hsc; exact hsc hany
      simp [hany, hsc, countByName, List.filter_append, mkStreamHandler, hfa]
  · have hb : (f != "" && !((getChannel s name).handlers.any
        fun x => x.hname == some f)) = true := by
      simp only [Bool.and_eq_true, bne_iff_ne, Bool.not_eq_true]
      exact ⟨hf, by simpa using hany⟩
    by_cases hsc : ((((getChannel s name).handlers ++ [mkFileHandler f level]).any
        fun x => x.hname == some (name ++ "_auto"))) = true
    · simp_all [countByName, List.filter_append, mkFileHandler]
      split
      · rename_i hcond
        rcases hsc with ⟨x, hx, hn⟩ | he
        · exact absurd hn (hcond.1 x hx)
        · exact absurd he hcond.2
      · rw [if_neg (fun hex => match hex with | ⟨x, hx, hn⟩ => hany x hx hn)]
        simp [List.filter_append]
    · have hfa : ¬ (name ++ "_auto" = f) := by
        intro he
        apply hsc
        simp [List.any_append, mkFileHandler, he]
      simp_all [countByName, List.filter_append, mkFileHandler, mkStreamHandler]
      rw [if_neg (fun hex => match hex with | ⟨x, hx, hn⟩ => hany x hx hn)]

theorem get_logger_appends_file_handler (s : LogState) (name f : String)
    (level : Nat) (nc : Bool) (hf : f ≠ "")
    (hno : ((getChannel s name).handlers.any fun h => h.hname == some f) = false) :
    ∃ rest, (getChannel (get_logger s name level (some f) nc) name).handlers
      = (getChannel s name).handlers ++ mkFileHandler f level :: rest := by
  rw [get_logger, getChannel_setChannel_same]
  have hb : (f != "" && !((getChannel s name).handlers.any
      fun x => x.hname == some f)) = true := by
    simp only [Bool.and_eq_true, bne_iff_ne, Bool.not_eq_true']
    exact ⟨hf, hno⟩
  by_cases hsc : ((((getChannel s name).handlers ++ [mkFileHandler f level]).any
      fun x => x.hname == some (name ++ "_auto"))) = true
  · exact ⟨[], by simp [hb, hsc]⟩
  · exact ⟨[mkStreamHandler name level nc], by simp [hb, hsc]⟩

/-- C10: with a non-empty path string, `get_logger` attaches a new file
sink if and only if `str(file)` differs from every existing handler name
on the channel: the count of handlers named `f` grows by one exactly when
no handler named `f` existed, and in that case the appended handler is
the file handler for `f`.  Deduplication is keyed on the string spelling
alone, so two spellings of the same file make two sinks while a `Path`
and a `str` with the identical spelling make one. -/
theorem get_logger_file_dedup_by_name_string (s : LogState) (name f : String)
    (level : Nat) (nc : Bool) (hf : f ≠ "") :
    countByName (getChannel (get_logger s name level (some f) nc) name) f
      = countByName (getChannel s name) f
        + (if (getChannel s name).handlers.any (fun h => h.hname == some f) then 0 else 1)
    ∧ (((getChannel s name).handlers.any fun h => h.hname == some f) = false →
        ∃ rest, (getChannel (get_logger s name level (some f) nc) name).handlers
          = (getChannel s name).handlers ++ mkFileHandler f level :: rest) :=
  ⟨get_logger_countByName_update s name f level nc hf,
    fun hno => get_logger_appends_file_handler s name f level nc hf hno⟩

theorem get_logger_file_dedup_by_name_string_witness :
    (("log.txt" : String) ≠ (""))
      ∧ countByName
          (getChannel (get_logger emptyLogState ("tutu") 20 (some ("log.txt")) false) ("tutu"))
          ("log.txt")
        = countByName (getChannel emptyLogState ("tutu")) ("log.txt")
          + (if (getChannel emptyLogState ("tutu")).handlers.any
                (fun h => h.hname == some ("log.txt")) then 0 else 1) :=
  ⟨by decide,
    (get_logger_file_dedup_by_name_string emptyLogState ("tutu") ("log.txt") 20 false
      (by decide)).1⟩

/-- C9 (spec-modelled): `log_to_file` computes the per-user default path
`<home>/.ibl_logs/<name>`, accepts the channel itself in place of its
name, is idempotent (a second call on the resulting state returns the
same state and path, so an already-attached sink is no failure), and a
record then emitted at `INFO` level is written to that path exactly
once. -/
theorem log_to_file_spec_model (home : String) (s : LogState) (n : String)
    (hfresh : (getChannel s n).handlers = []) :
    (log_to_file home s (LogRef.byName n) none).2 = home ++ "/.ibl_logs/" ++ n
      ∧ log_to_file home s (LogRef.byChannel n) none = log_to_file home s (LogRef.byName n) none
      ∧ log_to_file home (log_to_file home s (LogRef.byName n) none).1 (LogRef.byName n) none
          = log_to_file home s (LogRef.byName n) none
      ∧ linesToFile (getChannel (log_to_file home s (LogRef.byName n) none).1 n)
          (home ++ "/.ibl_logs/" ++ n) INFO = 1 := by
  have hfull : log_to_file home s (LogRef.byName n) none
      = (setChannel s n ⟨INFO, [mkFileHandler (home ++ "/.ibl_logs/" ++ n) INFO]⟩,
          home ++ "/.ibl_logs/" ++ n) := by
    rw [log_to_file]
    simp [hfresh]
  refine ⟨by rw [hfull], rfl, ?_, ?_⟩
  · rw [hfull]
    rw [log_to_file]
    have hdup : (([mkFileHandler (home ++ "/.ibl_logs/" ++ n) INFO] : List Handler).any
        fun x => x.hname == some (home ++ "/.ibl_logs/" ++ n)) = true := by
      simp [mkFileHandler]
    simp [getChannel_setChannel_same, setChannel_setChannel_same, hdup]
  · rw [hfull]
    simp only [getChannel_setChannel_same, linesToFile]
    simp [mkFileHandler, INFO]

theorem log_to_file_spec_model_witness :
    ((getChannel emptyLogState ("_foobar")).handlers = [])
      ∧ (log_to_file ("/root") emptyLogState (LogRef.byName ("_foobar")) none).2
          = ("/root") ++ "/.ibl_logs/" ++ ("_foobar")
      ∧ linesToFile
          (getChannel (log_to_file ("/root") emptyLogState (LogRef.byName ("_foobar")) none).1
            ("_foobar"))
          (("/root") ++ "/.ibl_logs/" ++ ("_foobar")) INFO = 1 :=
  ⟨by decide,
    (log_to_file_spec_model ("/root") emptyLogState ("_foobar") (by decide)).1,
    (log_to_file_spec_model ("/root") emptyLogState ("_foobar") (by decide)).2.2.2⟩
